import Mathlib

/-!
Verification of `sanic/reloader_helpers.py` (development-time autoreload
supervisor): module-file enumeration, relaunch-command construction,
recursive child-process termination, and the watchdog poll loop.

Shallow embedding conventions:
* filesystem existence checks (`os.path.isfile`) are an oracle
  `isfile : String → Bool`;
* `os.path.dirname` is implemented faithfully after CPython's
  `posixpath.dirname` (POSIX separator);
* modification times (`st_mtime`) are rationals (only their linear order
  matters to the code); `os.stat` is an oracle `String → Option ℚ`
  (`none` = the `OSError` branch);
* the `/proc/<pid>/task/<pid>/children` facility and `os.kill` are oracles
  bundled in `KillEnv`; signalling is observed as a trace of `os.kill`
  calls in program order;
* Python exceptions surface as `Option`/`Except`-style error components.
-/

namespace Reloader

/-! ### Definitions: the embedded program -/

/-- `p[:p.rfind('/') + 1]` on a character list: keep everything up to and
including the last slash; empty when there is no slash. -/
def upToLastSlash (p : List Char) : List Char :=
  (p.reverse.dropWhile (fun c => ¬ (c = '/'))).reverse

/-- `head.rstrip('/')` on a character list. -/
def rstripSlashes (h : List Char) : List Char :=
  (h.reverse.dropWhile (fun c => c = '/')).reverse

/-- CPython `posixpath.dirname` on the character list of a path:
`head = p[:i]` with `i = p.rfind('/') + 1`; if `head` is nonempty and not
all slashes, strip trailing slashes. -/
def dirnameData (p : List Char) : List Char :=
  let head := upToLastSlash p
  if head ≠ [] ∧ ¬ head.all (fun c => c = '/') then rstripSlashes head
  else head

/-- `os.path.dirname` on strings. -/
def dirname (p : String) : String := ⟨dirnameData p.data⟩

/-- The `while not os.path.isfile(filename): ... else: ...` ancestor walk of
`_iter_module_files`, with explicit fuel standing for the number of loop
iterations the unbounded Python loop is allowed to take.  `none` = fuel
exhausted (the loop is still running); `some none` = exited via `break`
(fixed point reached, nothing yielded); `some (some f)` = exited because
`isfile f` held (the `else:` branch runs with this `f`). -/
def walkFuel (isfile : String → Bool) : Nat → String → Option (Option String)
  | 0, _ => none
  | fuel + 1, filename =>
    if isfile filename then some (some filename)
    else
      let next := dirname filename
      if next = filename then some none
      else walkFuel isfile fuel next

/-- The walk's result; `walkFuel` is shown below to stabilize at any fuel
above `filename.length`. -/
def resolveFile (isfile : String → Bool) (filename : String) : Option String :=
  (walkFuel isfile (filename.length + 1) filename).getD none

/-- Python's slice `s[-4:]`: the last four characters (the whole string when
shorter than four characters). -/
def lastFour (s : String) : List Char := s.data.drop (s.data.length - 4)

/-- Python's slice `s[:-1]`: drop the final character. -/
def dropLastChar (s : String) : String := ⟨s.data.dropLast⟩

/-- `if filename[-4:] in ('.pyc', '.pyo'): filename = filename[:-1]`. -/
def fixSuffix (filename : String) : String :=
  if lastFour filename = ".pyc".data ∨ lastFour filename = ".pyo".data then
    dropLastChar filename
  else filename

/-- What one module entry with truthy `__file__ = f` contributes:
the walk's found file after suffix normalization, or nothing. -/
def moduleYield (isfile : String → Bool) (f : String) : Option String :=
  (resolveFile isfile f).map fixSuffix

/-- `_iter_module_files` over a snapshot of `sys.modules.values()`.
An entry is `none` for a `None` module, `some none` for a module without a
`__file__` attribute, and `some (some f)` for `__file__ = f`; Python's
truthiness test `if filename:` skips `f = ""`. -/
def iter_module_files (isfile : String → Bool)
    (modules : List (Option (Option String))) : List String :=
  modules.filterMap (fun entry =>
    match entry with
    | none => none
    | some none => none
    | some (some f) => if f = "" then none else moduleYield isfile f)

/-- Python dict lookup `mtimes.get(filename)` over an association list
(insertion order preserved, keys unique). -/
def dictGet : List (String × ℚ) → String → Option ℚ
  | [], _ => none
  | (k, v) :: rest, key => if k = key then some v else dictGet rest key

/-- Python dict assignment `mtimes[filename] = mtime`: overwrite in place or
append. -/
def dictSet : List (String × ℚ) → String → ℚ → List (String × ℚ)
  | [], k, v => [(k, v)]
  | (k0, v0) :: rest, k, v =>
      if k0 = k then (k, v) :: rest else (k0, v0) :: dictSet rest k v

/-- The body of `for filename in _iter_module_files():` in `watchdog`:
`stat` is the `os.stat(...).st_mtime` oracle (`none` = the `OSError`
branch, `continue`); the state is the pair (mtimes table, need_reload). -/
def processFile (stat : String → Option ℚ) (st : List (String × ℚ) × Bool)
    (filename : String) : List (String × ℚ) × Bool :=
  match stat filename with
  | none => st
  | some mtime =>
    match dictGet st.1 filename with
    | none => (dictSet st.1 filename mtime, st.2)
    | some old_time =>
        if old_time < mtime then (dictSet st.1 filename mtime, true) else st

/-- One full pass of the file loop, starting from `need_reload = False`. -/
def scanCycle (stat : String → Option ℚ) (files : List String)
    (mtimes : List (String × ℚ)) : List (String × ℚ) × Bool :=
  files.foldl (processFile stat) (mtimes, false)

/-- Path `p` triggers a reload against table `t`: it stats successfully and
its new mtime strictly exceeds the recorded one. -/
def trig (stat : String → Option ℚ) (t : List (String × ℚ)) (p : String) :
    Prop :=
  ∃ m old, stat p = some m ∧ dictGet t p = some old ∧ old < m

/-- Externally observable supervisor actions. -/
inductive SupAction where
  | killTree (pid : Int)
  | term (pid : Int)
  | launch (pid : Int)
  | exitZero
  deriving DecidableEq, Repr

/-- `kill_program_completely(proc)`: kill the child's process tree, then
`proc.terminate()`, then `os._exit(0)`.  `os._exit` never returns, so the
exit action is always the last action the supervisor performs. -/
def kill_program_completely (procPid : Int) : List SupAction :=
  [SupAction.killTree procPid, SupAction.term procPid, SupAction.exitZero]

/-- The supervisor's loop state: the mtimes table, the pid of the current
`worker_process` handle, and how many children have been launched. -/
structure WatchState where
  table : List (String × ℚ)
  current : Int
  launches : Nat

/-- One iteration of `while True:` in `watchdog`: scan all files, then on
`need_reload` kill the current child's tree, terminate it, and relaunch
(fresh pid drawn from the supply `pids`, indexed by launch count). -/
def watchStep (stat : String → Option ℚ) (files : List String)
    (pids : Nat → Int) (s : WatchState) : WatchState :=
  let r := scanCycle stat files s.table
  if r.2 then
    { table := r.1, current := pids s.launches, launches := s.launches + 1 }
  else { table := r.1, current := s.current, launches := s.launches }

/-- The supervisor state after the initial launch (`mtimes = {}`, first
child drawn from the pid supply) and `n` completed loop iterations; the
per-iteration stat oracle and file enumeration may differ between
iterations (the filesystem changes under the loop). -/
def watchRun (stat : Nat → String → Option ℚ) (files : Nat → List String)
    (pids : Nat → Int) : Nat → WatchState
  | 0 => { table := [], current := pids 0, launches := 1 }
  | n + 1 => watchStep (stat n) (files n) pids (watchRun stat files pids n)

/-- What a delivered SIGTERM/SIGINT makes the supervisor do: the installed
handler is `lambda *args: kill_program_completely(worker_process)`, and the
closure reads the `worker_process` variable at call time. -/
def signalShutdown (s : WatchState) : List SupAction :=
  kill_program_completely s.current

/-- The restart actions of one iteration (empty when `need_reload` stays
unset): kill the tree of the current child, terminate it, launch a new one. -/
def iterationActions (stat : String → Option ℚ) (files : List String)
    (pids : Nat → Int) (s : WatchState) : List SupAction :=
  if (scanCycle stat files s.table).2 then
    [SupAction.killTree s.current, SupAction.term s.current,
      SupAction.launch (pids s.launches)]
  else []

/-- Result of one `os.kill(n, SIGTERM)` call. -/
inductive KillOutcome where
  | ok
  | noSuchProcess
  | otherError
  deriving DecidableEq, Repr

/-- Python exceptions that can escape the function. -/
inductive PyError where
  | valueError (token : String)
  | osError
  deriving DecidableEq, Repr

/-- The OS facilities used by Strategy A: `childrenFile s` is the content
(whitespace-split tokens) of `/proc/s/task/s/children` when that file
exists, and `kill n` the outcome of signalling pid `n` with SIGTERM. -/
structure KillEnv where
  childrenFile : String → Option (List String)
  kill : Int → KillOutcome

/-- Decimal digit-string value; `none` when empty or any non-digit occurs. -/
def charsToNat (l : List Char) : Option Nat :=
  if l ≠ [] ∧ l.all Char.isDigit then
    some (l.foldl (fun acc c => acc * 10 + (c.toNat - 48)) 0)
  else none

/-- Python `int(token)` on a `split()` token, decimal with optional sign.
(Underscore digit grouping, legal in Python but impossible in `/proc`
children lists, is not modelled.) -/
def pyInt (s : String) : Option Int :=
  match s.data with
  | [] => none
  | c :: rest =>
    if c = '-' then (charsToNat rest).map (fun n => -(n : Int))
    else if c = '+' then (charsToNat rest).map (fun n => (n : Int))
    else (charsToNat (c :: rest)).map (fun n => (n : Int))

/-- The grandchild loop `for _pid in children_list_pid_2:` — each token is
parsed with `int` and signalled, `ProcessLookupError` is caught and the
loop continues; a `ValueError` from `int` or any other kill exception
escapes.  Returns the trace of `os.kill` calls and the escaping
exception, if any. -/
def killList (env : KillEnv) :
    List String → List (Int × KillOutcome) × Option PyError
  | [] => ([], none)
  | tok :: rest =>
    match pyInt tok with
    | none => ([], some (PyError.valueError tok))
    | some n =>
      match env.kill n with
      | KillOutcome.otherError =>
          ([(n, KillOutcome.otherError)], some PyError.osError)
      | o =>
          let r := killList env rest
          ((n, o) :: r.1, r.2)

/-- The outer loop `for child_pid in children_list_pid:` — a child whose
own children file is absent is skipped (`continue`); otherwise its
grandchildren are signalled first, then the child itself;
`ProcessLookupError` on the child is caught (`continue`). -/
def killChildren (env : KillEnv) :
    List String → List (Int × KillOutcome) × Option PyError
  | [] => ([], none)
  | c :: rest =>
    match env.childrenFile c with
    | none => killChildren env rest
    | some gtoks =>
      let g := killList env gtoks
      match g.2 with
      | some e => (g.1, some e)
      | none =>
        match pyInt c with
        | none => (g.1, some (PyError.valueError c))
        | some n =>
          match env.kill n with
          | KillOutcome.otherError =>
              (g.1 ++ [(n, KillOutcome.otherError)], some PyError.osError)
          | o =>
              let r := killChildren env rest
              (g.1 ++ (n, o) :: r.1, r.2)

/-- `kill_process_children_unix(pid)`: a no-op when the root's children
file is absent; otherwise runs the nested kill loops over its tokens. -/
def kill_process_children_unix (env : KillEnv) (pid : Int) :
    List (Int × KillOutcome) × Option PyError :=
  match env.childrenFile (toString pid) with
  | none => ([], none)
  | some cs => killChildren env cs

/-- The pid a children-list token denotes (its `int` parse; the default is
irrelevant and only read where a parse is separately known to succeed). -/
def pidOf (tok : String) : Int := (pyInt tok).getD 0

/-- The kill trace Strategy A produces for one direct-child token `c`:
nothing when `c`'s own children-list file is absent (the `continue` skips
the child entirely, unsignalled); otherwise each listed grandchild in list
order, then the child itself. -/
def childKillTrace (env : KillEnv) (c : String) : List (Int × KillOutcome) :=
  match env.childrenFile c with
  | none => []
  | some gtoks =>
      gtoks.map (fun g => (pidOf g, env.kill (pidOf g)))
        ++ [(pidOf c, env.kill (pidOf c))]

/-- `_get_args_for_reloading()`: `executable` is `sys.executable`, `argv0`
is `sys.argv[0]`, `argvRest` is `sys.argv[1:]`, and `mod_spec` is the name
of `__main__.__spec__` when that spec is non-`None` (module-style launch).
`Except.error` is the `RuntimeError` raise. -/
def _get_args_for_reloading (executable : String) (argv0 : String)
    (argvRest : List String) (mod_spec : Option String) :
    Except String (List String) :=
  if argv0 = "" ∨ argv0 = "-c" then
    Except.error ("Autoreloader cannot work with argv[0]=" ++ argv0)
  else
    match mod_spec with
    | some name => Except.ok ([executable, "-m", name] ++ argvRest)
    | none => Except.ok (executable :: argv0 :: argvRest)

/-- An environment realizing the spec's synthetic depth-2 tree: root 1 with
children 2 and 3, grandchild 4 under 2; every signal is delivered. -/
def envTree : KillEnv where
  childrenFile := fun s =>
    if s = "1" then some ["2", "3"]
    else if s = "2" then some ["4"]
    else if s = "3" then some []
    else none
  kill := fun _ => KillOutcome.ok

/-- An environment in which every process is already gone: each signal
raises `ProcessLookupError`. -/
def envIdem : KillEnv where
  childrenFile := fun s =>
    if s = "5" then some ["9"] else if s = "9" then some [] else none
  kill := fun _ => KillOutcome.noSuchProcess

/-- An environment whose grandchild list holds a non-numeric token. -/
def envErr : KillEnv where
  childrenFile := fun s =>
    if s = "1" then some ["2"] else if s = "2" then some ["x"] else none
  kill := fun _ => KillOutcome.ok

/-- An environment where the root's only direct child, pid 2, has no
readable children-list file of its own. -/
def envSkip : KillEnv where
  childrenFile := fun s => if s = "1" then some ["2"] else none
  kill := fun _ => KillOutcome.ok

/-! ### Theorems -/

theorem dropWhile_length_le (q : Char → Bool) :
    ∀ l : List Char, (l.dropWhile q).length ≤ l.length := by
  intro l
  induction l with
  | nil => simp
  | cons a t ih =>
      by_cases h : q a = true
      · simpa [List.dropWhile_cons, h] using Nat.le_succ_of_le ih
      · simp [List.dropWhile_cons, h]

theorem dropWhile_eq_self_of_length (q : Char → Bool) (l : List Char)
    (h : (l.dropWhile q).length = l.length) : l.dropWhile q = l := by
  cases l with
  | nil => simp
  | cons a t =>
      by_cases hq : q a = true
      · exfalso
        have hle := dropWhile_length_le q t
        rw [List.dropWhile_cons, if_pos hq, List.length_cons] at h
        omega
      · rw [List.dropWhile_cons, if_neg hq]

theorem dropWhile_head_false (q : Char → Bool) :
    ∀ (l : List Char) (c : Char) (d : List Char),
      l.dropWhile q = c :: d → q c = false := by
  intro l
  induction l with
  | nil => intro c d h; simp at h
  | cons a t ih =>
      intro c d h
      by_cases hq : q a = true
      · rw [List.dropWhile_cons, if_pos hq] at h
        exact ih c d h
      · rw [List.dropWhile_cons, if_neg hq] at h
        cases h
        simpa using hq

/-- The walk step shrinks strictly unless it is at a fixed point:
the core termination fact behind the ancestor walk. -/
theorem dirnameData_shrinks (p : List Char) :
    dirnameData p = p ∨ (dirnameData p).length < p.length := by
  have hlen : (upToLastSlash p).length ≤ p.length := by
    have h1 := dropWhile_length_le (fun c => ¬ (c = '/')) p.reverse
    rw [List.length_reverse] at h1
    unfold upToLastSlash
    rw [List.length_reverse]
    exact h1
  by_cases hc : upToLastSlash p ≠ [] ∧ ¬ (upToLastSlash p).all (fun c => c = '/')
  · have hd : dirnameData p = rstripSlashes (upToLastSlash p) := by
      simp only [dirnameData]
      rw [if_pos hc]
    right
    rw [hd]
    -- the slice is nonempty and ends with '/', so rstrip removes ≥ 1 char
    obtain ⟨hne, _⟩ := hc
    obtain ⟨c, d, hcd⟩ : ∃ c d, (upToLastSlash p).reverse = c :: d := by
      cases hr : (upToLastSlash p).reverse with
      | nil => exact absurd (by simpa using congrArg List.reverse hr) hne
      | cons c d => exact ⟨c, d, rfl⟩
    have hrev : (upToLastSlash p).reverse
        = p.reverse.dropWhile (fun c => ¬ (c = '/')) := by
      unfold upToLastSlash
      rw [List.reverse_reverse]
    have hcslash : c = '/' := by
      have := dropWhile_head_false (fun c => ¬ (c = '/')) p.reverse c d
        (by rw [← hrev, hcd])
      simpa using this
    have hdlen : (upToLastSlash p).length = d.length + 1 := by
      have := congrArg List.length hcd
      simpa using this
    have hlt : (rstripSlashes (upToLastSlash p)).length
        < (upToLastSlash p).length := by
      unfold rstripSlashes
      rw [hcd, List.dropWhile_cons, if_pos (by simp [hcslash]),
        List.length_reverse]
      have hle := dropWhile_length_le (fun c => c = '/') d
      omega
    omega
  · have hd : dirnameData p = upToLastSlash p := by
      simp only [dirnameData]
      rw [if_neg hc]
    by_cases hlt : (upToLastSlash p).length < p.length
    · right; rw [hd]; exact hlt
    · left
      have hlrev : (upToLastSlash p).length
          = (p.reverse.dropWhile (fun c => ¬ (c = '/'))).length := by
        unfold upToLastSlash
        rw [List.length_reverse]
      have hself : p.reverse.dropWhile (fun c => ¬ (c = '/')) = p.reverse := by
        apply dropWhile_eq_self_of_length
        rw [List.length_reverse]
        omega
      rw [hd]
      unfold upToLastSlash
      rw [hself, List.reverse_reverse]

theorem dirname_shrinks (p : String) :
    dirname p = p ∨ (dirname p).length < p.length := by
  rcases dirnameData_shrinks p.data with h | h
  · left
    show String.mk (dirnameData p.data) = p
    rw [h]
  · right
    have h1 : (dirname p).length = (dirnameData p.data).length := rfl
    have h2 : p.length = p.data.length := rfl
    omega

/-- One unfolding step of the walk. -/
theorem walkFuel_succ (isfile : String → Bool) (fuel : Nat) (fn : String) :
    walkFuel isfile (fuel + 1) fn =
      if isfile fn then some (some fn)
      else if dirname fn = fn then some none
      else walkFuel isfile fuel (dirname fn) := rfl

/-- The walk's value does not depend on the fuel, once the fuel exceeds the
path length. -/
theorem walkFuel_congr (isfile : String → Bool) :
    ∀ (n : Nat) (fn : String), fn.length ≤ n →
      ∀ f1 f2 : Nat, fn.length < f1 → fn.length < f2 →
        walkFuel isfile f1 fn = walkFuel isfile f2 fn := by
  intro n
  induction n with
  | zero =>
      intro fn hn f1 f2 h1 h2
      obtain ⟨a, rfl⟩ : ∃ a, f1 = a + 1 := ⟨f1 - 1, by omega⟩
      obtain ⟨b, rfl⟩ : ∃ b, f2 = b + 1 := ⟨f2 - 1, by omega⟩
      by_cases hf : isfile fn = true
      · simp [walkFuel, hf]
      · have hfix : dirname fn = fn := by
          rcases dirname_shrinks fn with h | h
          · exact h
          · omega
        simp [walkFuel, hf, hfix]
  | succ k ih =>
      intro fn hn f1 f2 h1 h2
      obtain ⟨a, rfl⟩ : ∃ a, f1 = a + 1 := ⟨f1 - 1, by omega⟩
      obtain ⟨b, rfl⟩ : ∃ b, f2 = b + 1 := ⟨f2 - 1, by omega⟩
      by_cases hf : isfile fn = true
      · simp [walkFuel, hf]
      · by_cases hfix : dirname fn = fn
        · simp [walkFuel, hf, hfix]
        · have hlt : (dirname fn).length < fn.length := by
            rcases dirname_shrinks fn with h | h
            · exact absurd h hfix
            · exact h
          have : walkFuel isfile a (dirname fn) = walkFuel isfile b (dirname fn) :=
            ih (dirname fn) (by omega) a b (by omega) (by omega)
          simp [walkFuel, hf, hfix, this]

/-- Fuel `length + 1` always produces an answer: the Python loop terminates
within `length + 1` iterations on every input path. -/
theorem walkFuel_total (isfile : String → Bool) :
    ∀ (n : Nat) (fn : String), fn.length ≤ n →
      ∃ r, walkFuel isfile (fn.length + 1) fn = some r := by
  intro n
  induction n with
  | zero =>
      intro fn hn
      by_cases hf : isfile fn = true
      · exact ⟨some fn, by simp [walkFuel, hf]⟩
      · have hfix : dirname fn = fn := by
          rcases dirname_shrinks fn with h | h
          · exact h
          · omega
        exact ⟨none, by simp [walkFuel, hf, hfix]⟩
  | succ k ih =>
      intro fn hn
      by_cases hf : isfile fn = true
      · exact ⟨some fn, by simp [walkFuel, hf]⟩
      · by_cases hfix : dirname fn = fn
        · exact ⟨none, by simp [walkFuel, hf, hfix]⟩
        · have hlt : (dirname fn).length < fn.length := by
            rcases dirname_shrinks fn with h | h
            · exact absurd h hfix
            · exact h
          obtain ⟨r, hr⟩ := ih (dirname fn) (by omega)
          refine ⟨r, ?_⟩
          have hcongr : walkFuel isfile fn.length (dirname fn)
              = walkFuel isfile ((dirname fn).length + 1) (dirname fn) :=
            walkFuel_congr isfile k (dirname fn) (by omega) _ _ (by omega) (by omega)
          rw [walkFuel_succ, if_neg hf, if_neg hfix, hcongr, hr]

/-- Any fuel above the path length computes `resolveFile`. -/
theorem walkFuel_eq_resolveFile (isfile : String → Bool) (fuel : Nat)
    (fn : String) (h : fn.length < fuel) :
    walkFuel isfile fuel fn = some (resolveFile isfile fn) := by
  obtain ⟨r, hr⟩ := walkFuel_total isfile fn.length fn (Nat.le_refl _)
  have hc : walkFuel isfile fuel fn = walkFuel isfile (fn.length + 1) fn :=
    walkFuel_congr isfile fn.length fn (Nat.le_refl _) fuel (fn.length + 1) h
      (Nat.lt_succ_self _)
  rw [hc, hr, resolveFile, hr]
  rfl

theorem dictGet_dictSet (t : List (String × ℚ)) (k p : String) (v : ℚ) :
    dictGet (dictSet t k v) p = if k = p then some v else dictGet t p := by
  induction t with
  | nil =>
      by_cases h : k = p
      · simp [dictSet, dictGet, h]
      · simp [dictSet, dictGet, h]
  | cons kv rest ih =>
      obtain ⟨k0, v0⟩ := kv
      by_cases h0 : k0 = k
      · subst h0
        by_cases h : k0 = p
        · simp [dictSet, dictGet, h]
        · simp [dictSet, dictGet, h]
      · by_cases h : k0 = p
        · subst h
          have hk : ¬ k = k0 := fun hh => h0 hh.symm
          simp [dictSet, dictGet, h0, hk]
        · simp [dictSet, dictGet, h0, h, ih]

/-- `processFile` writes no key other than its own filename. -/
theorem processFile_other (stat : String → Option ℚ)
    (st : List (String × ℚ) × Bool) (q p : String) (h : q ≠ p) :
    dictGet (processFile stat st q).1 p = dictGet st.1 p := by
  unfold processFile
  cases stat q with
  | none => rfl
  | some m =>
      cases dictGet st.1 q with
      | none => simp [dictGet_dictSet, h]
      | some old =>
          by_cases hlt : old < m
          · simp [hlt, dictGet_dictSet, h]
          · simp [hlt]

/-- `processFile` never clears the flag. -/
theorem processFile_flag_mono (stat : String → Option ℚ)
    (st : List (String × ℚ) × Bool) (q : String) (h : st.2 = true) :
    (processFile stat st q).2 = true := by
  unfold processFile
  cases stat q with
  | none => exact h
  | some m =>
      cases dictGet st.1 q with
      | none => exact h
      | some old =>
          by_cases hlt : old < m
          · simp [hlt]
          · simp [hlt, h]

/-- One step of the loop: how the flag and the table step preserve the
relation to the table at the start of the cycle. -/
theorem processFile_step (stat : String → Option ℚ) (t : List (String × ℚ))
    (t' : List (String × ℚ)) (b : Bool) (q : String)
    (hinv : ∀ p, dictGet t' p = dictGet t p ∨
      ∃ m, stat p = some m ∧ dictGet t' p = some m ∧ (trig stat t p → b = true)) :
    ((processFile stat (t', b) q).2 = true ↔ (b = true ∨ trig stat t q))
    ∧ ∀ p, dictGet (processFile stat (t', b) q).1 p = dictGet t p ∨
        ∃ m, stat p = some m ∧ dictGet (processFile stat (t', b) q).1 p = some m ∧
          (trig stat t p → (processFile stat (t', b) q).2 = true) := by
  cases hstat : stat q with
  | none =>
      have hres : processFile stat (t', b) q = (t', b) := by
        unfold processFile
        rw [hstat]
      rw [hres]
      constructor
      · constructor
        · intro hb; exact Or.inl hb
        · rintro (hb | ⟨m, old, hm, _, _⟩)
          · exact hb
          · rw [hstat] at hm; exact absurd hm (by simp)
      · exact hinv
  | some m =>
      cases hget : dictGet t' q with
      | none =>
          have hres : processFile stat (t', b) q = (dictSet t' q m, b) := by
            unfold processFile
            rw [hstat, hget]
          have hntrig : ¬ trig stat t q := by
            rintro ⟨m0, old0, hm0, hold0, _⟩
            rcases hinv q with hl | ⟨m1, _, hq1, _⟩
            · rw [hget] at hl; rw [hold0] at hl; exact absurd hl (by simp)
            · rw [hget] at hq1; exact absurd hq1 (by simp)
          rw [hres]
          constructor
          · simp only
            constructor
            · intro hb; exact Or.inl hb
            · rintro (hb | htr)
              · exact hb
              · exact absurd htr hntrig
          · intro p
            by_cases hpq : q = p
            · subst hpq
              right
              exact ⟨m, hstat, by rw [dictGet_dictSet, if_pos rfl],
                fun htr => absurd htr hntrig⟩
            · have : dictGet (dictSet t' q m) p = dictGet t' p := by
                rw [dictGet_dictSet, if_neg hpq]
              rw [this]
              exact hinv p
      | some old =>
          by_cases hlt : old < m
          · have hres : processFile stat (t', b) q = (dictSet t' q m, true) := by
              unfold processFile
              rw [hstat, hget]
              simp [hlt]
            have htrig : trig stat t q := by
              rcases hinv q with hl | ⟨m1, hs1, hq1, _⟩
              · rw [hget] at hl
                exact ⟨m, old, hstat, hl.symm, hlt⟩
              · rw [hget] at hq1
                rw [hstat] at hs1
                have h1 : m1 = m := (Option.some.inj hs1).symm
                have h2 : m1 = old := (Option.some.inj hq1).symm
                exact absurd hlt (by rw [← h1, h2]; exact lt_irrefl old)
            rw [hres]
            constructor
            · simp [htrig]
            · intro p
              by_cases hpq : q = p
              · subst hpq
                right
                exact ⟨m, hstat, by rw [dictGet_dictSet, if_pos rfl],
                  fun _ => rfl⟩
              · have heq : dictGet (dictSet t' q m) p = dictGet t' p := by
                  rw [dictGet_dictSet, if_neg hpq]
                simp only [heq]
                rcases hinv p with hl | ⟨m1, hs1, hq1, _⟩
                · exact Or.inl hl
                · exact Or.inr ⟨m1, hs1, hq1, fun _ => by simp⟩
          · have hres : processFile stat (t', b) q = (t', b) := by
              unfold processFile
              rw [hstat, hget]
              simp [hlt]
            have himp : trig stat t q → b = true := by
              rintro ⟨m0, old0, hm0, hold0, hlt0⟩
              rcases hinv q with hl | ⟨m1, hs1, hq1, himp1⟩
              · rw [hget] at hl
                rw [hold0] at hl
                have h1 : m0 = m := by
                  rw [hstat] at hm0
                  exact (Option.some.inj hm0).symm
                have h2 : old = old0 := Option.some.inj hl
                exact absurd hlt0 (by rw [h1, ← h2]; exact hlt)
              · exact himp1 ⟨m0, old0, hm0, hold0, hlt0⟩
            rw [hres]
            constructor
            · constructor
              · intro hb; exact Or.inl hb
              · rintro (hb | htr)
                · exact hb
                · exact himp htr
            · exact hinv

/-- The flag computed by the rest of the loop, relative to the table at the
start of the cycle. -/
theorem foldl_flag (stat : String → Option ℚ) (t : List (String × ℚ)) :
    ∀ (files : List String) (t' : List (String × ℚ)) (b : Bool),
      (∀ p, dictGet t' p = dictGet t p ∨
        ∃ m, stat p = some m ∧ dictGet t' p = some m ∧
          (trig stat t p → b = true)) →
      ((files.foldl (processFile stat) (t', b)).2 = true ↔
        (b = true ∨ ∃ p ∈ files, trig stat t p)) := by
  intro files
  induction files with
  | nil =>
      intro t' b _
      simp
  | cons q rest ih =>
      intro t' b hinv
      obtain ⟨hflag, hinv'⟩ := processFile_step stat t t' b q hinv
      have hstep : (q :: rest).foldl (processFile stat) (t', b)
          = rest.foldl (processFile stat) (processFile stat (t', b) q) := rfl
      rw [hstep]
      have hpair : processFile stat (t', b) q
          = ((processFile stat (t', b) q).1, (processFile stat (t', b) q).2) := rfl
      rw [hpair]
      rw [ih (processFile stat (t', b) q).1 (processFile stat (t', b) q).2 hinv']
      rw [hflag]
      constructor
      · rintro ((hb | htr) | ⟨p, hp, htr⟩)
        · exact Or.inl hb
        · exact Or.inr ⟨q, by simp, htr⟩
        · exact Or.inr ⟨p, by simp [hp], htr⟩
      · rintro (hb | ⟨p, hp, htr⟩)
        · exact Or.inl (Or.inl hb)
        · rcases List.mem_cons.mp hp with h | h
          · subst h; exact Or.inl (Or.inr htr)
          · exact Or.inr ⟨p, h, htr⟩

/-- *Monotonic trigger*, flag part: the cycle's `need_reload` is set iff some
enumerated path stats successfully and strictly exceeds its recorded mtime. -/
theorem scanCycle_flag (stat : String → Option ℚ) (files : List String)
    (t : List (String × ℚ)) :
    (scanCycle stat files t).2 = true ↔ ∃ p ∈ files, trig stat t p := by
  have h := foldl_flag stat t files t false (fun p => Or.inl rfl)
  rw [scanCycle, h]
  simp

/-- An entry no observed mtime can exceed is never rewritten by the loop. -/
theorem foldl_preserve (stat : String → Option ℚ) :
    ∀ (files : List String) (t' : List (String × ℚ)) (b : Bool)
      (p : String) (v : ℚ),
      dictGet t' p = some v → (∀ m, stat p = some m → m ≤ v) →
      dictGet ((files.foldl (processFile stat) (t', b)).1) p = some v := by
  intro files
  induction files with
  | nil => intro t' b p v hv _; exact hv
  | cons q rest ih =>
      intro t' b p v hv hle
      have hstep : (q :: rest).foldl (processFile stat) (t', b)
          = rest.foldl (processFile stat) (processFile stat (t', b) q) := rfl
      rw [hstep]
      have hkeep : dictGet (processFile stat (t', b) q).1 p = some v := by
        by_cases hpq : q = p
        · subst hpq
          unfold processFile
          cases hstat : stat q with
          | none => exact hv
          | some m =>
              rw [hv]
              simp only
              have : ¬ v < m := not_lt.mpr (hle m hstat)
              simp [this, hv]
        · rw [processFile_other stat (t', b) q p hpq]
          exact hv
      have hpair : processFile stat (t', b) q
          = ((processFile stat (t', b) q).1, (processFile stat (t', b) q).2) := rfl
      rw [hpair]
      exact ih _ _ p v hkeep hle

/-- An enumerated, stat-able path whose entry is absent, equal (after an
earlier write this cycle), or strictly smaller ends the cycle recorded at
its observed mtime. -/
theorem foldl_written (stat : String → Option ℚ) :
    ∀ (files : List String) (t' : List (String × ℚ)) (b : Bool)
      (p : String) (m : ℚ),
      p ∈ files → stat p = some m →
      (dictGet t' p = none ∨ dictGet t' p = some m ∨
        ∃ old, dictGet t' p = some old ∧ old < m) →
      dictGet ((files.foldl (processFile stat) (t', b)).1) p = some m := by
  intro files
  induction files with
  | nil => intro t' b p m hmem _ _; exact absurd hmem (by simp)
  | cons q rest ih =>
      intro t' b p m hmem hstat hcase
      have hstep : (q :: rest).foldl (processFile stat) (t', b)
          = rest.foldl (processFile stat) (processFile stat (t', b) q) := rfl
      rw [hstep]
      have hpair : processFile stat (t', b) q
          = ((processFile stat (t', b) q).1, (processFile stat (t', b) q).2) := rfl
      rw [hpair]
      by_cases hpq : q = p
      · subst hpq
        have hwritten : dictGet (processFile stat (t', b) q).1 q = some m := by
          unfold processFile
          rw [hstat]
          rcases hcase with h | h | ⟨old, hold, hlt⟩
          · rw [h]
            simp [dictGet_dictSet]
          · rw [h]
            simp only
            have hm : ¬ m < m := lt_irrefl m
            simp [hm, h]
          · rw [hold]
            simp [hlt, dictGet_dictSet]
        exact foldl_preserve stat rest _ _ q m hwritten
          (fun m' hm' => by rw [hstat] at hm'; rw [Option.some.inj hm'])
      · have hmem' : p ∈ rest := by
          rcases List.mem_cons.mp hmem with h | h
          · exact absurd h.symm hpq
          · exact h
        have hkeep : dictGet (processFile stat (t', b) q).1 p = dictGet t' p :=
          processFile_other stat (t', b) q p hpq
        apply ih _ _ p m hmem' hstat
        rw [hkeep]
        exact hcase

/-- C5: `_get_args_for_reloading` raises (`RuntimeError`) precisely when
`sys.argv[0]` is `""` or `"-c"`; in every other invocation context it
returns a command without raising. -/
theorem reload_args_fatal_iff (ex argv0 : String) (rest : List String)
    (spec : Option String) :
    ((∃ msg, _get_args_for_reloading ex argv0 rest spec = Except.error msg) ↔
      (argv0 = "" ∨ argv0 = "-c"))
    ∧ (¬ (argv0 = "" ∨ argv0 = "-c") →
        ∃ cmd, _get_args_for_reloading ex argv0 rest spec = Except.ok cmd) := by
  by_cases h : argv0 = "" ∨ argv0 = "-c"
  · constructor
    · constructor
      · intro _; exact h
      · intro _
        exact ⟨"Autoreloader cannot work with argv[0]=" ++ argv0,
          by unfold _get_args_for_reloading; rw [if_pos h]⟩
    · intro hn; exact absurd h hn
  · constructor
    · constructor
      · rintro ⟨msg, hmsg⟩
        unfold _get_args_for_reloading at hmsg
        rw [if_neg h] at hmsg
        cases spec with
        | none => exact absurd hmsg (by simp)
        | some name => exact absurd hmsg (by simp)
      · intro hc; exact absurd hc h
    · intro _
      cases spec with
      | none =>
          exact ⟨ex :: argv0 :: rest,
            by unfold _get_args_for_reloading; rw [if_neg h]⟩
      | some name =>
          exact ⟨[ex, "-m", name] ++ rest,
            by unfold _get_args_for_reloading; rw [if_neg h]⟩

/-- C5 witness: with `argv[0] = "app.py"` a command is returned; with
`argv[0] = "-c"` an error is raised. -/
theorem reload_args_fatal_iff_witness :
    (∃ cmd, _get_args_for_reloading "python" "app.py" ["--dev"] none
      = Except.ok cmd)
    ∧ (∃ msg, _get_args_for_reloading "python" "-c" [] none
      = Except.error msg) :=
  ⟨(reload_args_fatal_iff "python" "app.py" ["--dev"] none).2 (by simp),
    (reload_args_fatal_iff "python" "-c" [] none).1.mpr (Or.inr rfl)⟩

/-- C6 counterexample: with a non-`None` module spec but `argv[0] = ""`,
the function raises instead of returning the module-style command the
claim asserts unconditionally. -/
theorem reload_args_module_counterexample :
    _get_args_for_reloading "python" "" [] (some "app")
      = Except.error ("Autoreloader cannot work with argv[0]=" ++ "")
    ∧ _get_args_for_reloading "python" "" [] (some "app")
      ≠ Except.ok ["python", "-m", "app"] := by
  constructor
  · rfl
  · intro h
    have h2 : (Except.error ("Autoreloader cannot work with argv[0]=" ++ "") :
        Except String (List String)) = Except.ok ["python", "-m", "app"] := by
      rw [← h]
      rfl
    exact Except.noConfusion h2

/-- C6 (amended): provided `argv[0]` is neither `""` nor `"-c"` (otherwise
the `RuntimeError` of C5 pre-empts the return), a non-`None` module spec
yields `[executable, "-m", spec.name] + sys.argv[1:]`, and a `None` spec
yields `[executable] + sys.argv`. -/
theorem reload_args_module_spec (ex argv0 : String) (rest : List String)
    (name : String) (h : ¬ (argv0 = "" ∨ argv0 = "-c")) :
    _get_args_for_reloading ex argv0 rest (some name)
      = Except.ok ([ex, "-m", name] ++ rest)
    ∧ _get_args_for_reloading ex argv0 rest none
      = Except.ok (ex :: argv0 :: rest) := by
  constructor
  · unfold _get_args_for_reloading
    rw [if_neg h]
  · unfold _get_args_for_reloading
    rw [if_neg h]

/-- C6 witness at a concrete module-style invocation. -/
theorem reload_args_module_spec_witness :
    _get_args_for_reloading "python" "/x/app.py" ["--dev"] (some "app")
      = Except.ok ["python", "-m", "app", "--dev"]
    ∧ _get_args_for_reloading "python" "/x/app.py" ["--dev"] none
      = Except.ok ["python", "/x/app.py", "--dev"] :=
  reload_args_module_spec "python" "/x/app.py" ["--dev"] "app" (by simp)

/-- C1: in a poll cycle, `need_reload` is set — and the kill+relaunch of the
child performed — iff some enumerated, stat-able path already recorded in
the table has a strictly greater observed mtime; each such path's record is
updated to the new mtime, and a path whose observed mtime is ≤ its record
leaves the record unchanged. -/
theorem watchdog_monotonic_trigger (stat : String → Option ℚ)
    (files : List String) (t : List (String × ℚ)) :
    ((scanCycle stat files t).2 = true ↔ ∃ p ∈ files, trig stat t p)
    ∧ (∀ p m old, p ∈ files → stat p = some m → dictGet t p = some old →
        old < m → dictGet (scanCycle stat files t).1 p = some m)
    ∧ (∀ p m old, stat p = some m → dictGet t p = some old → m ≤ old →
        dictGet (scanCycle stat files t).1 p = some old)
    ∧ (∀ (pids : Nat → Int) (s : WatchState), s.table = t →
        (iterationActions stat files pids s ≠ [] ↔ ∃ p ∈ files, trig stat t p)) := by
  refine ⟨scanCycle_flag stat files t, ?_, ?_, ?_⟩
  · intro p m old hmem hstat hold hlt
    exact foldl_written stat files t false p m hmem hstat
      (Or.inr (Or.inr ⟨old, hold, hlt⟩))
  · intro p m old hstat hold hle
    exact foldl_preserve stat files t false p old hold
      (fun m' hm' => by
        rw [hstat] at hm'
        rw [← Option.some.inj hm']
        exact hle)
  · intro pids s hs
    unfold iterationActions
    rw [hs]
    by_cases hflag : (scanCycle stat files t).2 = true
    · rw [if_pos hflag]
      simp only [ne_eq, List.cons_ne_nil, not_false_eq_true, true_iff]
      exact (scanCycle_flag stat files t).mp hflag
    · rw [if_neg hflag]
      constructor
      · intro h; exact absurd rfl h
      · intro hex
        exact absurd ((scanCycle_flag stat files t).mpr hex) hflag

/-- C1 witness: a recorded file whose mtime advances from 1 to 2 sets the
flag and updates the record; one that stays at its recorded mtime keeps it. -/
theorem watchdog_monotonic_trigger_witness :
    (scanCycle (fun _ => some 2) ["f"] [("f", 1)]).2 = true
    ∧ dictGet (scanCycle (fun _ => some 2) ["f"] [("f", 1)]).1 "f" = some 2
    ∧ dictGet (scanCycle (fun _ => some 2) ["g"] [("g", 2)]).1 "g" = some 2 := by
  refine ⟨?_, ?_, ?_⟩
  · exact (watchdog_monotonic_trigger (fun _ => some 2) ["f"] [("f", 1)]).1.mpr
      ⟨"f", by simp, 2, 1, rfl, rfl, by norm_num⟩
  · exact (watchdog_monotonic_trigger (fun _ => some 2) ["f"] [("f", 1)]).2.1
      "f" 2 1 (by simp) rfl rfl (by norm_num)
  · exact (watchdog_monotonic_trigger (fun _ => some 2) ["g"] [("g", 2)]).2.2.1
      "g" 2 2 rfl rfl (le_refl 2)

/-- C4: a stat-able path with no entry in the table gets its mtime recorded
as baseline, and first-sight paths never set `need_reload`: if no already
recorded path triggers, the cycle's flag stays `False`. -/
theorem first_sight_no_reload (stat : String → Option ℚ)
    (files : List String) (t : List (String × ℚ)) (p : String) (m : ℚ)
    (hmem : p ∈ files) (hstat : stat p = some m)
    (hnew : dictGet t p = none) :
    dictGet (scanCycle stat files t).1 p = some m
    ∧ ((∀ q ∈ files, ¬ trig stat t q) → (scanCycle stat files t).2 = false) := by
  constructor
  · exact foldl_written stat files t false p m hmem hstat (Or.inl hnew)
  · intro h
    cases hb : (scanCycle stat files t).2 with
    | false => rfl
    | true =>
        obtain ⟨q, hq, htr⟩ := (scanCycle_flag stat files t).mp hb
        exact absurd htr (h q hq)

/-- C4 witness: a file seen for the first time (empty table) is recorded at
its observed mtime and does not trigger a reload in that cycle. -/
theorem first_sight_no_reload_witness :
    dictGet (scanCycle (fun _ => some 5) ["g"] []).1 "g" = some 5
    ∧ (scanCycle (fun _ => some 5) ["g"] []).2 = false := by
  have h := first_sight_no_reload (fun _ => some 5) ["g"] [] "g" 5 (by simp)
    rfl rfl
  refine ⟨h.1, h.2 ?_⟩
  rintro q hq ⟨m, old, hm, hold, hlt⟩
  exact Option.noConfusion hold

/-- The current handle is always the most recently launched child. -/
theorem watchRun_current_latest (stat : Nat → String → Option ℚ)
    (files : Nat → List String) (pids : Nat → Int) :
    ∀ n, (watchRun stat files pids n).current
        = pids ((watchRun stat files pids n).launches - 1)
      ∧ 1 ≤ (watchRun stat files pids n).launches := by
  intro n
  induction n with
  | zero => exact ⟨rfl, le_refl 1⟩
  | succ k ih =>
      have hs : watchRun stat files pids (k + 1)
          = watchStep (stat k) (files k) pids (watchRun stat files pids k) := rfl
      rw [hs]
      unfold watchStep
      by_cases hflag :
          (scanCycle (stat k) (files k) (watchRun stat files pids k).table).2 = true
      · simp only [hflag, if_true]
        exact ⟨by simp, by omega⟩
      · simp only [hflag, if_false]
        exact ih

/-- C3: a SIGTERM/SIGINT delivered after any number of completed loop
iterations makes the supervisor run `kill_process_children` on the pid of
the child handle current at delivery time — the most recently launched
child, `pids (launches - 1)`, even after reloads — then `terminate()` it,
then exit with status 0; `os._exit(0)` is terminal, so the exit action
closes the handler's action list and no watch-loop iteration follows. -/
theorem signal_shutdown_behavior (stat : Nat → String → Option ℚ)
    (files : Nat → List String) (pids : Nat → Int) (n : Nat) :
    signalShutdown (watchRun stat files pids n)
      = [SupAction.killTree (watchRun stat files pids n).current,
         SupAction.term (watchRun stat files pids n).current,
         SupAction.exitZero]
    ∧ (watchRun stat files pids n).current
        = pids ((watchRun stat files pids n).launches - 1)
    ∧ 1 ≤ (watchRun stat files pids n).launches
    ∧ (signalShutdown (watchRun stat files pids n)).getLast?
        = some SupAction.exitZero := by
  obtain ⟨h1, h2⟩ := watchRun_current_latest stat files pids n
  exact ⟨rfl, h1, h2, rfl⟩

/-- When the walk finds no file, the found-file branch never runs. -/
theorem resolveFile_found (isfile : String → Bool) (fn : String)
    (h : isfile fn = true) : resolveFile isfile fn = some fn := by
  rw [resolveFile, walkFuel_succ, if_pos h]
  rfl

/-- One walk step below a non-file, non-fixed-point path. -/
theorem resolveFile_step (isfile : String → Bool) (fn : String)
    (hf : ¬ isfile fn = true) (hfix : dirname fn ≠ fn) :
    resolveFile isfile fn = resolveFile isfile (dirname fn) := by
  have hlt : (dirname fn).length < fn.length := by
    rcases dirname_shrinks fn with h | h
    · exact absurd h hfix
    · exact h
  have h1 : walkFuel isfile fn.length (dirname fn)
      = some (resolveFile isfile (dirname fn)) :=
    walkFuel_eq_resolveFile isfile fn.length (dirname fn) hlt
  rw [resolveFile, walkFuel_succ, if_neg hf, if_neg hfix, h1]
  rfl

/-- A found file is an existing file. -/
theorem resolveFile_isfile (isfile : String → Bool) :
    ∀ (n : Nat) (fn : String), fn.length ≤ n →
      ∀ f, resolveFile isfile fn = some f → isfile f = true := by
  intro n
  induction n with
  | zero =>
      intro fn hn f hres
      by_cases hf : isfile fn = true
      · rw [resolveFile_found isfile fn hf] at hres
        rw [← Option.some.inj hres]
        exact hf
      · have hfix : dirname fn = fn := by
          rcases dirname_shrinks fn with h | h
          · exact h
          · omega
        rw [resolveFile, walkFuel_succ, if_neg hf, if_pos hfix] at hres
        exact absurd hres (by simp [Option.getD])
  | succ k ih =>
      intro fn hn f hres
      by_cases hf : isfile fn = true
      · rw [resolveFile_found isfile fn hf] at hres
        rw [← Option.some.inj hres]
        exact hf
      · by_cases hfix : dirname fn = fn
        · rw [resolveFile, walkFuel_succ, if_neg hf, if_pos hfix] at hres
          exact absurd hres (by simp [Option.getD])
        · rw [resolveFile_step isfile fn hf hfix] at hres
          have hlt : (dirname fn).length < fn.length := by
            rcases dirname_shrinks fn with h | h
            · exact absurd h hfix
            · exact h
          exact ih (dirname fn) (by omega) f hres

/-- A walk that yields nothing has run into a `dirname` fixed point that is
not a file. -/
theorem resolveFile_none_fixed (isfile : String → Bool) :
    ∀ (n : Nat) (fn : String), fn.length ≤ n →
      resolveFile isfile fn = none →
      ∃ k, dirname (dirname^[k] fn) = dirname^[k] fn
        ∧ isfile (dirname^[k] fn) = false := by
  intro n
  induction n with
  | zero =>
      intro fn hn hres
      by_cases hf : isfile fn = true
      · rw [resolveFile_found isfile fn hf] at hres
        exact absurd hres (by simp)
      · have hfix : dirname fn = fn := by
          rcases dirname_shrinks fn with h | h
          · exact h
          · omega
        exact ⟨0, by simpa using hfix, by simpa using hf⟩
  | succ k ih =>
      intro fn hn hres
      by_cases hf : isfile fn = true
      · rw [resolveFile_found isfile fn hf] at hres
        exact absurd hres (by simp)
      · by_cases hfix : dirname fn = fn
        · exact ⟨0, by simpa using hfix, by simpa using hf⟩
        · rw [resolveFile_step isfile fn hf hfix] at hres
          have hlt : (dirname fn).length < fn.length := by
            rcases dirname_shrinks fn with h | h
            · exact absurd h hfix
            · exact h
          obtain ⟨j, hj1, hj2⟩ := ih (dirname fn) (by omega) hres
          refine ⟨j + 1, ?_, ?_⟩
          · rw [Function.iterate_succ_apply]
            exact hj1
          · rw [Function.iterate_succ_apply]
            exact hj2

/-- C7: the ancestor walk of `_iter_module_files` terminates on every input
path: within `length + 1` iterations it either reaches an existing file —
which the entry then yields after suffix normalization — or reaches a
`dirname` fixed point that is not a file, in which case the entry yields
nothing and is skipped. -/
theorem ancestor_walk_terminates (isfile : String → Bool) (fn : String) :
    (∀ fuel, fn.length < fuel →
      walkFuel isfile fuel fn = some (resolveFile isfile fn))
    ∧ (∀ f, resolveFile isfile fn = some f →
        isfile f = true ∧ moduleYield isfile fn = some (fixSuffix f))
    ∧ (resolveFile isfile fn = none →
        moduleYield isfile fn = none
        ∧ ∃ k, dirname (dirname^[k] fn) = dirname^[k] fn
            ∧ isfile (dirname^[k] fn) = false) := by
  refine ⟨?_, ?_, ?_⟩
  · intro fuel hfuel
    exact walkFuel_eq_resolveFile isfile fuel fn hfuel
  · intro f hres
    refine ⟨resolveFile_isfile isfile fn.length fn (le_refl _) f hres, ?_⟩
    rw [moduleYield, hres]
    rfl
  · intro hres
    refine ⟨by rw [moduleYield, hres]; rfl,
      resolveFile_none_fixed isfile fn.length fn (le_refl _) hres⟩

/-- C7 witness: with no file existing anywhere, the three-level-deep path
"a/b/c" is walked to the fixed point "" and yields nothing; any fuel above
the path length returns the stable answer. -/
theorem ancestor_walk_terminates_witness :
    walkFuel (fun _ => false) 10 "a/b/c"
      = some (resolveFile (fun _ => false) "a/b/c")
    ∧ moduleYield (fun _ => false) "a/b/c" = none := by
  constructor
  · exact (ancestor_walk_terminates (fun _ => false) "a/b/c").1 10 (by decide)
  · exact ((ancestor_walk_terminates (fun _ => false) "a/b/c").2.2
      (by decide)).1

/-- C9: when the file found by the ancestor walk ends in ".pyc" or ".pyo",
the enumerated path is that name with its final character dropped — for
every existence oracle, so the rewritten ".py" path's existence is never
rechecked — and the enumerator can therefore yield a path that does not
exist on disk, as the closed instance shows. -/
theorem pyc_yield_unchecked :
    (∀ (isfile : String → Bool) (f g : String),
      resolveFile isfile f = some g →
      (lastFour g = ".pyc".data ∨ lastFour g = ".pyo".data) →
      moduleYield isfile f = some (dropLastChar g))
    ∧ iter_module_files (fun s => s = "a.pyc") [some (some "a.pyc")]
        = ["a.py"]
    ∧ (fun s : String => decide (s = "a.pyc")) "a.py" = false := by
  refine ⟨?_, by decide, by decide⟩
  intro isfile f g hres hsuf
  rw [moduleYield, hres, Option.map_some']
  rw [fixSuffix, if_pos hsuf]

/-- C9 witness: a concrete ".pyo" bytecode path is rewritten to the ".py"
source path when yielded. -/
theorem pyc_yield_unchecked_witness :
    moduleYield (fun s => s = "b.pyo") "b.pyo" = some (dropLastChar "b.pyo") :=
  pyc_yield_unchecked.1 (fun s => s = "b.pyo") "b.pyo" "b.pyo" (by decide)
    (Or.inr (by decide))

/-- A token that parses at all parses to `pidOf` of itself. -/
theorem pidOf_spec (tok : String) (h : (pyInt tok).isSome = true) :
    pyInt tok = some (pidOf tok) := by
  obtain ⟨n, hn⟩ := Option.isSome_iff_exists.mp h
  rw [hn]
  rw [show pidOf tok = n from by rw [pidOf, hn]; rfl]

/-- When every grandchild token parses and no kill raises anything but
`ProcessLookupError`, the grandchild loop signals exactly the listed pids,
in list order. -/
theorem killList_trace (env : KillEnv)
    (hkill : ∀ n, env.kill n ≠ KillOutcome.otherError) :
    ∀ gtoks, (∀ g ∈ gtoks, (pyInt g).isSome = true) →
      killList env gtoks
        = (gtoks.map (fun g => (pidOf g, env.kill (pidOf g))), none) := by
  intro gtoks
  induction gtoks with
  | nil => intro _; rfl
  | cons g rest ih =>
      intro hall
      obtain ⟨n, hn⟩ := Option.isSome_iff_exists.mp (hall g (by simp))
      have hval : pidOf g = n := by rw [pidOf, hn]; rfl
      have hrest := ih (fun tok hmem => hall tok (by simp [hmem]))
      cases ho : env.kill n with
      | otherError => exact absurd ho (hkill n)
      | ok => simp [killList, hn, ho, hrest, hval]
      | noSuchProcess => simp [killList, hn, ho, hrest, hval]

/-- When every token in every children list parses and no kill raises
anything but `ProcessLookupError`, the child loop's trace is exactly the
concatenation of the per-child traces: for each direct child in list
order, its grandchildren first, then the child, with a child whose own
children file is absent contributing no signal at all. -/
theorem killChildren_trace (env : KillEnv)
    (hkill : ∀ n, env.kill n ≠ KillOutcome.otherError)
    (hp : ∀ s l, env.childrenFile s = some l →
      ∀ tok ∈ l, (pyInt tok).isSome = true) :
    ∀ cs, (∀ c ∈ cs, (pyInt c).isSome = true) →
      killChildren env cs = (cs.flatMap (childKillTrace env), none) := by
  intro cs
  induction cs with
  | nil => intro _; rfl
  | cons c rest ih =>
      intro hall
      have hrest := ih (fun tok hmem => hall tok (by simp [hmem]))
      cases hcf : env.childrenFile c with
      | none =>
          simp only [killChildren, hcf, hrest, List.flatMap_cons]
          rw [show childKillTrace env c = [] from by
            rw [childKillTrace, hcf]]
          rfl
      | some gtoks =>
          obtain ⟨n, hn⟩ := Option.isSome_iff_exists.mp (hall c (by simp))
          have hval : pidOf c = n := by rw [pidOf, hn]; rfl
          have hg := killList_trace env hkill gtoks (hp c gtoks hcf)
          have hct : childKillTrace env c
              = gtoks.map (fun g => (pidOf g, env.kill (pidOf g)))
                ++ [(n, env.kill n)] := by
            rw [childKillTrace, hcf, hval]
          cases ho : env.kill n with
          | otherError => exact absurd ho (hkill n)
          | ok =>
              simp [killChildren, hcf, hg, hn, ho, hrest, hct,
                List.flatMap_cons]
          | noSuchProcess =>
              simp [killChildren, hcf, hg, hn, ho, hrest, hct,
                List.flatMap_cons]

/-- C2 counterexample: pid 2 is listed as a direct child of root 1, yet
Strategy A never signals it — its own children-list file is absent, so the
`continue` at the top of the child loop skips it before any kill —
refuting the claim's unconditional "signals every direct child of the
root". -/
theorem kill_children_unix_order_counterexample :
    kill_process_children_unix envSkip 1 = ([], none)
    ∧ ∀ o, ((2 : Int), o) ∉ (kill_process_children_unix envSkip 1).1 := by
  have h : kill_process_children_unix envSkip 1 = ([], none) := by decide
  refine ⟨h, ?_⟩
  intro o hmem
  rw [h] at hmem
  exact List.not_mem_nil _ hmem

/-- C2 (amended): for every root pid, whenever every listed token parses
and no signal raises an uncaught error, the trace of Strategy A is exactly
the concatenation, over the root's direct-child tokens in list order, of
the per-child traces — each grandchild of a child signalled in order
strictly before that child; so every direct child whose own children-list
file is present is signalled after all its grandchildren, a direct child
whose children-list file is absent is skipped entirely and never
signalled, the root pid itself is never signalled provided it does not
occur among the listed child or grandchild tokens, and nothing at all is
done when the root's children-list file is absent. -/
theorem kill_children_unix_order (env : KillEnv) (pid : Int)
    (cs : List String)
    (hroot : env.childrenFile (toString pid) = some cs)
    (hp : ∀ s l, env.childrenFile s = some l →
      ∀ tok ∈ l, (pyInt tok).isSome = true)
    (hkill : ∀ n, env.kill n ≠ KillOutcome.otherError)
    (hnotroot : ∀ c ∈ cs, pyInt c ≠ some pid ∧
      ∀ gtoks, env.childrenFile c = some gtoks →
        ∀ g ∈ gtoks, pyInt g ≠ some pid) :
    kill_process_children_unix env pid
      = (cs.flatMap (childKillTrace env), none)
    ∧ (∀ c ∈ cs, ∀ gtoks, env.childrenFile c = some gtoks →
        ∃ pre post, (kill_process_children_unix env pid).1
          = pre ++ gtoks.map (fun g => (pidOf g, env.kill (pidOf g)))
            ++ (pidOf c, env.kill (pidOf c)) :: post)
    ∧ (∀ c ∈ cs, env.childrenFile c = none → childKillTrace env c = [])
    ∧ (∀ o, (pid, o) ∉ (kill_process_children_unix env pid).1)
    ∧ (∀ (env2 : KillEnv) (q : Int), env2.childrenFile (toString q) = none →
        kill_process_children_unix env2 q = ([], none)) := by
  have hmain : kill_process_children_unix env pid
      = (cs.flatMap (childKillTrace env), none) := by
    simp only [kill_process_children_unix, hroot]
    exact killChildren_trace env hkill hp cs (hp _ cs hroot)
  refine ⟨hmain, ?_, ?_, ?_, ?_⟩
  · intro c hc gtoks hcf
    obtain ⟨l1, l2, hsplit⟩ := List.append_of_mem hc
    refine ⟨l1.flatMap (childKillTrace env), l2.flatMap (childKillTrace env),
      ?_⟩
    rw [hmain]
    simp only [hsplit, List.flatMap_append, List.flatMap_cons]
    rw [show childKillTrace env c
        = gtoks.map (fun g => (pidOf g, env.kill (pidOf g)))
          ++ [(pidOf c, env.kill (pidOf c))] from by
      rw [childKillTrace, hcf]]
    simp [List.append_assoc]
  · intro c _ hcf
    rw [childKillTrace, hcf]
  · intro o hmem
    rw [hmain] at hmem
    obtain ⟨c, hc, hmemc⟩ := List.mem_flatMap.mp hmem
    obtain ⟨hcroot, hgroot⟩ := hnotroot c hc
    cases hcf : env.childrenFile c with
    | none =>
        rw [childKillTrace, hcf] at hmemc
        exact List.not_mem_nil _ hmemc
    | some gtoks =>
        rw [childKillTrace, hcf] at hmemc
        rcases List.mem_append.mp hmemc with hmg | hmc
        · obtain ⟨g, hg, hgeq⟩ := List.mem_map.mp hmg
          have hpg : pyInt g = some (pidOf g) :=
            pidOf_spec g (hp c gtoks hcf g hg)
          have : pidOf g = pid := congrArg Prod.fst hgeq
          rw [this] at hpg
          exact hgroot gtoks hcf g hg hpg
        · have hceq : (pid, o) = (pidOf c, env.kill (pidOf c)) :=
            List.mem_singleton.mp hmc
          have hpc : pyInt c = some (pidOf c) :=
            pidOf_spec c (hp _ cs hroot c hc)
          have hpideq : pidOf c = pid := (congrArg Prod.fst hceq).symm
          rw [hpideq] at hpc
          exact hcroot hpc
  · intro env2 q hq
    rw [kill_process_children_unix, hq]

/-- C2 witness: on the spec's synthetic depth-2 tree (root 1, children 2
and 3, grandchild 4 under 2) the trace is exactly g1, c1, c2 and the root
pid 1 is never signalled. -/
theorem kill_children_unix_order_witness :
    kill_process_children_unix envTree 1
      = ([(4, KillOutcome.ok), (2, KillOutcome.ok), (3, KillOutcome.ok)], none)
    ∧ ∀ o, ((1 : Int), o) ∉ (kill_process_children_unix envTree 1).1 := by
  have hp : ∀ s l, envTree.childrenFile s = some l →
      ∀ tok ∈ l, (pyInt tok).isSome = true := by
    intro s l hsl tok htok
    by_cases h1 : s = "1"
    · rw [show envTree.childrenFile s = some ["2", "3"] from
        by simp [envTree, h1]] at hsl
      rw [← Option.some.inj hsl] at htok
      rcases List.mem_cons.mp htok with ht | ht
      · subst ht; decide
      · have ht2 : tok = "3" := by simpa using ht
        subst ht2; decide
    · by_cases h2 : s = "2"
      · rw [show envTree.childrenFile s = some ["4"] from
          by simp [envTree, h1, h2]] at hsl
        rw [← Option.some.inj hsl] at htok
        have ht : tok = "4" := by simpa using htok
        subst ht; decide
      · by_cases h3 : s = "3"
        · rw [show envTree.childrenFile s = some [] from
            by simp [envTree, h1, h2, h3]] at hsl
          rw [← Option.some.inj hsl] at htok
          exact absurd htok (List.not_mem_nil _)
        · rw [show envTree.childrenFile s = none from
            by simp [envTree, h1, h2, h3]] at hsl
          exact Option.noConfusion hsl
  have hnotroot : ∀ c ∈ ["2", "3"], pyInt c ≠ some 1 ∧
      ∀ gtoks, envTree.childrenFile c = some gtoks →
        ∀ g ∈ gtoks, pyInt g ≠ some 1 := by
    intro c hc
    rcases List.mem_cons.mp hc with h | h
    · subst h
      refine ⟨by decide, ?_⟩
      intro gtoks hg g hgm
      rw [show envTree.childrenFile "2" = some ["4"] from by decide] at hg
      rw [← Option.some.inj hg] at hgm
      have : g = "4" := by simpa using hgm
      subst this
      decide
    · have hc3 : c = "3" := by simpa using h
      subst hc3
      refine ⟨by decide, ?_⟩
      intro gtoks hg g hgm
      rw [show envTree.childrenFile "3" = some [] from by decide] at hg
      rw [← Option.some.inj hg] at hgm
      exact absurd hgm (List.not_mem_nil _)
  have h := kill_children_unix_order envTree 1 ["2", "3"] (by decide) hp
    (fun n h => KillOutcome.noConfusion h) hnotroot
  constructor
  · rw [h.1]
    decide
  · exact h.2.2.2.1

/-- When every token parses and no kill raises anything but
`ProcessLookupError`, the grandchild loop finishes without an exception and
attempts every pid on the list. -/
theorem killList_benign (env : KillEnv)
    (hk : ∀ n, env.kill n = KillOutcome.ok
      ∨ env.kill n = KillOutcome.noSuchProcess) :
    ∀ toks, (∀ tok ∈ toks, (pyInt tok).isSome = true) →
      (killList env toks).2 = none
      ∧ (killList env toks).1.length = toks.length := by
  intro toks
  induction toks with
  | nil => intro _; exact ⟨rfl, rfl⟩
  | cons t rest ih =>
      intro hall
      obtain ⟨n, hn⟩ := Option.isSome_iff_exists.mp (hall t (by simp))
      have hrest := ih (fun tok hmem => hall tok (by simp [hmem]))
      rcases hk n with ho | ho
      · constructor
        · simp only [killList, hn, ho]
          exact hrest.1
        · simp only [killList, hn, ho, List.length_cons]
          rw [hrest.2]
      · constructor
        · simp only [killList, hn, ho]
          exact hrest.1
        · simp only [killList, hn, ho, List.length_cons]
          rw [hrest.2]

/-- Same for the outer child loop. -/
theorem killChildren_benign (env : KillEnv)
    (hk : ∀ n, env.kill n = KillOutcome.ok
      ∨ env.kill n = KillOutcome.noSuchProcess)
    (hp : ∀ s l, env.childrenFile s = some l →
      ∀ tok ∈ l, (pyInt tok).isSome = true) :
    ∀ cs, (∀ tok ∈ cs, (pyInt tok).isSome = true) →
      (killChildren env cs).2 = none := by
  intro cs
  induction cs with
  | nil => intro _; rfl
  | cons c rest ih =>
      intro hall
      have hrest := ih (fun tok hmem => hall tok (by simp [hmem]))
      cases hcf : env.childrenFile c with
      | none =>
          simp only [killChildren, hcf]
          exact hrest
      | some gtoks =>
          have hg := killList_benign env hk gtoks (hp c gtoks hcf)
          obtain ⟨n, hn⟩ := Option.isSome_iff_exists.mp (hall c (by simp))
          rcases hk n with ho | ho
          · simp only [killChildren, hcf, hg.1, hn, ho]
            exact hrest
          · simp only [killChildren, hcf, hg.1, hn, ho]
            exact hrest

/-- C8: an already-exited pid (`ProcessLookupError` from `os.kill`) is
absorbed: when every children-list token parses and every signal lands on a
live or an already-exited process, `kill_process_children_unix` raises
nothing, and each kill loop still attempts every pid on its list. -/
theorem kill_children_idempotent (env : KillEnv) (pid : Int)
    (hk : ∀ n, env.kill n = KillOutcome.ok
      ∨ env.kill n = KillOutcome.noSuchProcess)
    (hp : ∀ s l, env.childrenFile s = some l →
      ∀ tok ∈ l, (pyInt tok).isSome = true) :
    (kill_process_children_unix env pid).2 = none
    ∧ ∀ toks, (∀ tok ∈ toks, (pyInt tok).isSome = true) →
        (killList env toks).2 = none
        ∧ (killList env toks).1.length = toks.length := by
  constructor
  · cases hcf : env.childrenFile (toString pid) with
    | none => simp only [kill_process_children_unix, hcf]
    | some cs =>
        simp only [kill_process_children_unix, hcf]
        exact killChildren_benign env hk hp cs (hp _ cs hcf)
  · exact killList_benign env hk

/-- C8 witness: signalling the already-exited child 9 raises nothing and
the attempt is still made. -/
theorem kill_children_idempotent_witness :
    (kill_process_children_unix envIdem 5).2 = none
    ∧ (killList envIdem ["9"]).2 = none
    ∧ (killList envIdem ["9"]).1.length = 1 := by
  have hp : ∀ s l, envIdem.childrenFile s = some l →
      ∀ tok ∈ l, (pyInt tok).isSome = true := by
    intro s l hsl tok htok
    by_cases h5 : s = "5"
    · have hl : l = ["9"] := by
        rw [show envIdem.childrenFile s = some ["9"] from
          by simp [envIdem, h5]] at hsl
        exact (Option.some.inj hsl).symm
      subst hl
      have ht : tok = "9" := by simpa using htok
      subst ht
      decide
    · by_cases h9 : s = "9"
      · have hl : l = [] := by
          rw [show envIdem.childrenFile s = some [] from
            by simp [envIdem, h5, h9]] at hsl
          exact (Option.some.inj hsl).symm
        subst hl
        simp at htok
      · rw [show envIdem.childrenFile s = none from
          by simp [envIdem, h5, h9]] at hsl
        exact Option.noConfusion hsl
  have h := kill_children_idempotent envIdem 5 (fun _ => Or.inr rfl) hp
  have h2 := h.2 ["9"] (by
    intro tok htok
    have ht : tok = "9" := by simpa using htok
    subst ht
    decide)
  exact ⟨h.1, h2.1, h2.2⟩

/-- C10: the only exception absorbed while signalling is
`ProcessLookupError`; a `ValueError` from `int()` or any other exception
from `os.kill` (e.g. `PermissionError`) escapes immediately, aborting the
remaining kills — including the remaining children at top level — while
`ProcessLookupError` lets the loop continue. -/
theorem kill_children_error_propagation (env : KillEnv) :
    (∀ tok rest, pyInt tok = none →
      killList env (tok :: rest) = ([], some (PyError.valueError tok)))
    ∧ (∀ tok rest n, pyInt tok = some n →
        env.kill n = KillOutcome.otherError →
        killList env (tok :: rest)
          = ([(n, KillOutcome.otherError)], some PyError.osError))
    ∧ (∀ tok rest n, pyInt tok = some n →
        env.kill n = KillOutcome.noSuchProcess →
        killList env (tok :: rest)
          = ((n, KillOutcome.noSuchProcess) :: (killList env rest).1,
             (killList env rest).2))
    ∧ (∀ (pid : Int) (c : String) (rest gtoks : List String) (e : PyError),
        env.childrenFile (toString pid) = some (c :: rest) →
        env.childrenFile c = some gtoks →
        (killList env gtoks).2 = some e →
        kill_process_children_unix env pid
          = ((killList env gtoks).1, some e)) := by
  refine ⟨?_, ?_, ?_, ?_⟩
  · intro tok rest h
    simp only [killList, h]
  · intro tok rest n h ho
    simp only [killList, h, ho]
  · intro tok rest n h ho
    simp only [killList, h, ho]
  · intro pid c rest gtoks e hroot hcf hg
    simp only [kill_process_children_unix, hroot, killChildren, hcf, hg]

/-- C10 witness: the `ValueError` on token "x" escapes to the top level and
no kill at all is performed. -/
theorem kill_children_error_propagation_witness :
    kill_process_children_unix envErr 1
      = ([], some (PyError.valueError "x")) := by
  have h1 := (kill_children_error_propagation envErr).1 "x" [] (by decide)
  have h4 := (kill_children_error_propagation envErr).2.2.2 1 "2" [] ["x"]
    (PyError.valueError "x") (by decide) (by decide) (by rw [h1])
  rw [h4, h1]

end Reloader
